/-
Verification of the flow-validation core of the chatbot flow builder
(src/utils/validation.ts) against its specification.

The data model (src/types/index.ts) and the three validated functions
(`validateFlow`, `canConnect`, `hasFlowCycles`) are shallowly embedded:
TypeScript arrays become `List`, optional fields become `Option`,
the imperative DFS of `hasFlowCycles` becomes explicit state passing
(visited set and recursion stack as lists) with a fuel argument that
bounds the recursion depth.
-/
import Mathlib

set_option maxHeartbeats 1000000

/-- Node type enumeration (src/types/index.ts: `NodeType`); a single variant. -/
inductive NodeType where
  | textMessage
deriving DecidableEq

/-- Payload of a node (src/types/index.ts: `NodeData`). `text` is optional. -/
structure NodeData where
  label : String
  text : Option String
  type : NodeType
deriving DecidableEq

/-- A flow node (src/types/index.ts: `CustomNode`). The position is
presentation-only and never read by the validated core (spec section 3);
its numeric type is irrelevant to every claim. -/
structure CustomNode where
  id : String
  type : NodeType
  position : Int × Int
  data : NodeData
deriving DecidableEq

/-- A directed edge (src/types/index.ts: `CustomEdge`); handles are optional. -/
structure CustomEdge where
  id : String
  source : String
  target : String
  sourceHandle : Option String
  targetHandle : Option String
deriving DecidableEq

/-- Result of `validateFlow` (src/types/index.ts: `ValidationResult`). -/
structure ValidationResult where
  isValid : Bool
  errors : List String
deriving DecidableEq

/-- The starting-point diagnostic pushed by `validateFlow`
(src/utils/validation.ts lines 27-31), as a function of the count. -/
def startConnMsg (n : Nat) : String :=
  "Flow validation failed: " ++ Nat.repr n ++
    " nodes have empty target handles. Only one node can be the starting point of the flow."

/-- The empty-message-text diagnostic pushed by `validateFlow`
(src/utils/validation.ts lines 39-43), as a function of the count. -/
def emptyTextMsg (n : Nat) : String :=
  Nat.repr n ++
    " node(s) have empty message text. Please add text to all message nodes before saving."

/-- The isolated-nodes diagnostic pushed by `validateFlow`
(src/utils/validation.ts lines 53-57), as a function of the count. -/
def isoMsg (n : Nat) : String :=
  Nat.repr n ++
    " nodes are completely isolated (no connections). Please connect them to the flow or remove them."

/-- `nodes.filter(node => !edges.some(edge => edge.target === node.id))`
(src/utils/validation.ts lines 22-24): nodes with no incoming edge. -/
def noIncomingNodes (nodes : List CustomNode) (edges : List CustomEdge) : List CustomNode :=
  nodes.filter fun node => ! edges.any fun edge => edge.target == node.id

/-- JS `String.prototype.trim`: remove whitespace from both ends of a
string (modeled on the character list so that it evaluates inside the
kernel). -/
def trimString (s : String) : String :=
  ⟨((s.data.dropWhile Char.isWhitespace).reverse.dropWhile Char.isWhitespace).reverse⟩

/-- `nodes.filter(node => !node.data.text || node.data.text.trim() === '')`
(src/utils/validation.ts lines 35-37): in JS an absent text and an empty
string are both falsy, and a falsy-but-present text trims to the empty
string, so the predicate is: text absent, or present and trimming to "". -/
def emptyTextNodes (nodes : List CustomNode) : List CustomNode :=
  nodes.filter fun node =>
    node.data.text.isNone || trimString (node.data.text.getD "") == ""

/-- `nodes.filter(node => !hasIncoming && !hasOutgoing)`
(src/utils/validation.ts lines 47-51): nodes with neither an incoming
nor an outgoing edge. -/
def isolatedNodes (nodes : List CustomNode) (edges : List CustomEdge) : List CustomNode :=
  nodes.filter fun node =>
    (! edges.any fun edge => edge.target == node.id) &&
    (! edges.any fun edge => edge.source == node.id)

/-- `validateFlow` (src/utils/validation.ts lines 13-64): early return for
at most one node, then the three independent checks pushing their
diagnostics in order, and `isValid := errors.length === 0`. -/
def validateFlow (nodes : List CustomNode) (edges : List CustomEdge) : ValidationResult :=
  if nodes.length ≤ 1 then { isValid := true, errors := [] }
  else
    let errs1 : List String :=
      if 1 < (noIncomingNodes nodes edges).length then
        [startConnMsg (noIncomingNodes nodes edges).length] else []
    let errs2 : List String :=
      if 0 < (emptyTextNodes nodes).length then
        [emptyTextMsg (emptyTextNodes nodes).length] else []
    let errs3 : List String :=
      if 1 < (isolatedNodes nodes edges).length then
        [isoMsg (isolatedNodes nodes edges).length] else []
    let errors := errs1 ++ errs2 ++ errs3
    { isValid := errors.length == 0, errors := errors }

/-- `canConnect` (src/utils/validation.ts lines 70-105): reject self
connections, then a source handle that already has an outgoing connection,
then an exact duplicate; otherwise accept.  JS `===` on possibly-undefined
handles is equality of `Option String`. -/
def canConnect (sourceNodeId : String) (sourceHandle : Option String)
    (targetNodeId : String) (targetHandle : Option String)
    (edges : List CustomEdge) : Bool :=
  if sourceNodeId == targetNodeId then false
  else if edges.any (fun edge =>
      edge.source == sourceNodeId && edge.sourceHandle == sourceHandle) then false
  else if edges.any (fun edge =>
      edge.source == sourceNodeId && edge.target == targetNodeId &&
      edge.sourceHandle == sourceHandle && edge.targetHandle == targetHandle) then false
  else true

/-
`hasFlowCycles` (src/utils/validation.ts lines 136-182).  The imperative
DFS closes over two mutable sets (`visited`, `recursionStack`); here the
sets are threaded explicitly as lists (`Set.add` is insert-if-absent,
`Set.delete` is erase).  The inner `hasCycle` recursion is split into the
per-node step (`dfsNodeF`, consuming one unit of fuel) and the loop over a
node's neighbors (`dfsGo`); fuel `nodes.length + edges.length + 1` strictly
exceeds the depth of any chain of nested calls, since every nested call is
on a node not yet visited and the visited set only grows.
-/

/-- The neighbor loop of `hasCycle` (src/utils/validation.ts lines 159-169):
for each neighbor, recurse (via `next`) when unvisited, report a cycle when
the neighbor sits on the recursion stack, otherwise skip; when the loop
ends, remove the current node from the recursion stack and report no cycle
(lines 170-171). -/
def dfsGo (next : String → List String → List String → Bool × List String × List String) :
    List String → String → List String → List String → Bool × List String × List String
  | [], nodeId, visited, stack => (false, visited, stack.erase nodeId)
  | n :: rest, nodeId, visited, stack =>
    if n ∉ visited then
      match next n visited stack with
      | (true, visited2, stack2) => (true, visited2, stack2)
      | (false, visited2, stack2) => dfsGo next rest nodeId visited2 stack2
    else if n ∈ stack then (true, visited, stack)
    else dfsGo next rest nodeId visited stack

/-- One call of `hasCycle(nodeId)` (src/utils/validation.ts lines 155-171):
mark the node visited, push it on the recursion stack, and run the
neighbor loop.  Out of fuel, answer `false` without touching the state;
with adequate fuel this case is unreachable. -/
def dfsNodeF (adj : String → List String) :
    Nat → String → List String → List String → Bool × List String × List String
  | 0 => fun _ visited stack => (false, visited, stack)
  | fuel + 1 => fun nodeId visited stack =>
      dfsGo (dfsNodeF adj fuel) (adj nodeId)
        nodeId
        (if nodeId ∈ visited then visited else nodeId :: visited)
        (if nodeId ∈ stack then stack else nodeId :: stack)

/-- The outer loop of `hasFlowCycles` (src/utils/validation.ts lines
174-180): start a DFS from every not-yet-visited node id, in order. -/
def dfsLoop (adj : String → List String) (fuel : Nat) :
    List String → List String → List String → Bool
  | [], _, _ => false
  | i :: ids, visited, stack =>
    if i ∉ visited then
      match dfsNodeF adj fuel i visited stack with
      | (true, _, _) => true
      | (false, visited2, stack2) => dfsLoop adj fuel ids visited2 stack2
    else dfsLoop adj fuel ids visited stack

/-- The adjacency relation built by `hasFlowCycles` (src/utils/validation.ts
lines 140-149): every node id is given an entry, then each edge whose
source has an entry pushes its target (targets need not be node ids);
looking up an id with no entry yields `[]` (the `|| []` on line 159). -/
def adjOf (nodes : List CustomNode) (edges : List CustomEdge) : String → List String :=
  fun id =>
    if id ∈ nodes.map (fun node => node.id) then
      (edges.filter fun edge => edge.source == id).map fun edge => edge.target
    else []

/-- `hasFlowCycles` (src/utils/validation.ts lines 136-182). -/
def hasFlowCycles (nodes : List CustomNode) (edges : List CustomEdge) : Bool :=
  dfsLoop (adjOf nodes edges) (nodes.length + edges.length + 1)
    (nodes.map fun node => node.id) [] []

/-- One traversal step of the DFS: `b` is among the adjacency-list
neighbors of `a`. -/
def StepRel (adj : String → List String) (a b : String) : Prop :=
  b ∈ adj a

/-- An arc of the directed graph the specification speaks about: an edge of
the collection both of whose endpoints are ids of the node collection. -/
def SpecArc (nodes : List CustomNode) (edges : List CustomEdge) (a b : String) : Prop :=
  a ∈ nodes.map (fun node => node.id) ∧ b ∈ nodes.map (fun node => node.id) ∧
    ∃ e ∈ edges, e.source = a ∧ e.target = b

/-- The graph with the node ids as vertices and `SpecArc` as arcs contains
a directed cycle (self-loops included): some vertex reaches itself in at
least one step. -/
def HasCycle (nodes : List CustomNode) (edges : List CustomEdge) : Prop :=
  ∃ x, Relation.TransGen (SpecArc nodes edges) x x

/-
Distinctness of the three diagnostic strings.  Each message embeds a
decimal count; `startConnMsg` begins with a letter while the other two
begin with the digits of the count, and the text following the digits
differs between `emptyTextMsg` and `isoMsg`, so no two messages coincide,
whatever the counts.
-/

/-- Decimal digit characters are digits. -/
lemma digitChar_isDigit (m : Nat) (h : m < 10) : (Nat.digitChar m).isDigit = true := by
  interval_cases m <;> decide

/-- `Nat.toDigitsCore` in base 10 only emits digit characters. -/
lemma toDigitsCore_digits (fuel : Nat) :
    ∀ (n : Nat) (ds : List Char), (∀ c ∈ ds, c.isDigit = true) →
      ∀ c ∈ Nat.toDigitsCore 10 fuel n ds, c.isDigit = true := by
  induction fuel with
  | zero => intro n ds hds; simpa [Nat.toDigitsCore] using hds
  | succ f ih =>
    intro n ds hds c hc
    rw [Nat.toDigitsCore] at hc
    have hdig : ∀ c ∈ (Nat.digitChar (n % 10) :: ds), c.isDigit = true := by
      intro c hc
      rcases List.mem_cons.mp hc with h | h
      · subst h; exact digitChar_isDigit _ (Nat.mod_lt _ (by decide))
      · exact hds c h
    by_cases h10 : n / 10 = 0
    · rw [if_pos h10] at hc
      exact hdig c hc
    · rw [if_neg h10] at hc
      exact ih (n / 10) _ hdig c hc

/-- `Nat.toDigitsCore` never discards its accumulator. -/
lemma toDigitsCore_ne_nil (fuel : Nat) :
    ∀ (n : Nat) (ds : List Char), ds ≠ [] → Nat.toDigitsCore 10 fuel n ds ≠ [] := by
  induction fuel with
  | zero => intro n ds hds; simpa [Nat.toDigitsCore] using hds
  | succ f ih =>
    intro n ds hds
    rw [Nat.toDigitsCore]
    by_cases h10 : n / 10 = 0
    · rw [if_pos h10]; exact List.cons_ne_nil _ _
    · rw [if_neg h10]; exact ih (n / 10) _ (List.cons_ne_nil _ _)

/-- The decimal representation of a natural number, as a character list. -/
lemma repr_data (n : Nat) : (Nat.repr n).data = Nat.toDigits 10 n := rfl

/-- Every character of `Nat.repr` is a digit. -/
lemma repr_digits (n : Nat) : ∀ c ∈ (Nat.repr n).data, c.isDigit = true := by
  rw [repr_data, Nat.toDigits]
  exact toDigitsCore_digits (n + 1) n [] (by intro c hc; cases hc)

/-- The decimal representation is never the empty string. -/
lemma repr_ne_nil (n : Nat) : (Nat.repr n).data ≠ [] := by
  rw [repr_data, Nat.toDigits, Nat.toDigitsCore]
  by_cases h10 : n / 10 = 0
  · rw [if_pos h10]; exact List.cons_ne_nil _ _
  · rw [if_neg h10]; exact toDigitsCore_ne_nil n (n / 10) _ (List.cons_ne_nil _ _)

/-- Two all-digit prefixes followed by a space-headed tail align: the tails
after the space agree. -/
lemma digits_space_inj :
    ∀ (xs ys r1 r2 : List Char), (∀ c ∈ xs, c.isDigit = true) →
      (∀ c ∈ ys, c.isDigit = true) →
      xs ++ ' ' :: r1 = ys ++ ' ' :: r2 → r1 = r2 := by
  intro xs
  induction xs with
  | nil =>
    intro ys r1 r2 _ hy h
    cases ys with
    | nil => simpa using h
    | cons y ys' =>
      exfalso
      have hsp : ' ' = y := by simpa using congrArg List.head? h
      have : (' ').isDigit = true := hsp ▸ hy y (List.mem_cons_self y ys')
      simp at this
  | cons x xs' ih =>
    intro ys r1 r2 hx hy h
    cases ys with
    | nil =>
      exfalso
      have hsp : x = ' ' := by simpa using congrArg List.head? h
      have : (' ').isDigit = true := hsp ▸ hx x (List.mem_cons_self x xs')
      simp at this
    | cons y ys' =>
      have htl : xs' ++ ' ' :: r1 = ys' ++ ' ' :: r2 := by
        simpa using congrArg List.tail h
      exact ih ys' r1 r2 (fun c hc => hx c (List.mem_cons_of_mem x hc))
        (fun c hc => hy c (List.mem_cons_of_mem y hc)) htl

/-- The starting-point message never equals an empty-text message. -/
lemma startConnMsg_ne_emptyTextMsg (a b : Nat) : startConnMsg a ≠ emptyTextMsg b := by
  intro h
  have hd := congrArg String.data h
  simp only [startConnMsg, emptyTextMsg, String.data_append] at hd
  obtain ⟨c, cs, hcs⟩ : ∃ c cs, (Nat.repr b).data = c :: cs := by
    cases hrb : (Nat.repr b).data with
    | nil => exact absurd hrb (repr_ne_nil b)
    | cons c cs => exact ⟨c, cs, rfl⟩
  rw [hcs] at hd
  have hc : 'F' = c := by simpa using congrArg List.head? hd
  have : ('F').isDigit = true :=
    hc ▸ repr_digits b c (hcs ▸ List.mem_cons_self c cs)
  simp at this

/-- The starting-point message never equals an isolated-nodes message. -/
lemma startConnMsg_ne_isoMsg (a b : Nat) : startConnMsg a ≠ isoMsg b := by
  intro h
  have hd := congrArg String.data h
  simp only [startConnMsg, isoMsg, String.data_append] at hd
  obtain ⟨c, cs, hcs⟩ : ∃ c cs, (Nat.repr b).data = c :: cs := by
    cases hrb : (Nat.repr b).data with
    | nil => exact absurd hrb (repr_ne_nil b)
    | cons c cs => exact ⟨c, cs, rfl⟩
  rw [hcs] at hd
  have hc : 'F' = c := by simpa using congrArg List.head? hd
  have : ('F').isDigit = true :=
    hc ▸ repr_digits b c (hcs ▸ List.mem_cons_self c cs)
  simp at this

/-- An empty-text message never equals an isolated-nodes message. -/
lemma emptyTextMsg_ne_isoMsg (a b : Nat) : emptyTextMsg a ≠ isoMsg b := by
  intro h
  have hd := congrArg String.data h
  simp only [emptyTextMsg, isoMsg, String.data_append] at hd
  have := digits_space_inj _ _ _ _ (repr_digits a) (repr_digits b) hd
  exact absurd this (by decide)

/-- The error list of `validateFlow`, decomposed: empty on the early
return, otherwise the three independent checks concatenated in order. -/
lemma validateFlow_errors_eq (nodes : List CustomNode) (edges : List CustomEdge) :
    (validateFlow nodes edges).errors =
      if nodes.length ≤ 1 then [] else
        (if 1 < (noIncomingNodes nodes edges).length then
          [startConnMsg (noIncomingNodes nodes edges).length] else []) ++
        (if 0 < (emptyTextNodes nodes).length then
          [emptyTextMsg (emptyTextNodes nodes).length] else []) ++
        (if 1 < (isolatedNodes nodes edges).length then
          [isoMsg (isolatedNodes nodes edges).length] else []) := by
  unfold validateFlow
  split <;> rfl

/-- `isValid` is the emptiness of the error list. -/
lemma validateFlow_isValid_iff (nodes : List CustomNode) (edges : List CustomEdge) :
    (validateFlow nodes edges).isValid = true ↔ (validateFlow nodes edges).errors = [] := by
  unfold validateFlow
  split
  · simp
  · simp [List.length_eq_zero]

/-- Sample node A with text "hi", used by concrete witnesses. -/
def nA : CustomNode :=
  { id := "A", type := .textMessage, position := (0, 0),
    data := { label := "Message A", text := some "hi", type := .textMessage } }

/-- Sample node B with text "hi", used by concrete witnesses. -/
def nB : CustomNode :=
  { id := "B", type := .textMessage, position := (1, 1),
    data := { label := "Message B", text := some "hi", type := .textMessage } }

/-- Sample node B with empty text, used by concrete witnesses. -/
def nBempty : CustomNode :=
  { id := "B", type := .textMessage, position := (1, 1),
    data := { label := "Message B", text := some "", type := .textMessage } }

/-- Sample edge A -> B, used by concrete witnesses. -/
def eAB : CustomEdge :=
  { id := "eAB", source := "A", target := "B", sourceHandle := none, targetHandle := none }

/-- Sample edge B -> A, used by concrete witnesses. -/
def eBA : CustomEdge :=
  { id := "eBA", source := "B", target := "A", sourceHandle := none, targetHandle := none }

/-- Sample self-loop edge A -> A, used by concrete witnesses. -/
def eAA : CustomEdge :=
  { id := "eAA", source := "A", target := "A", sourceHandle := none, targetHandle := none }

/-- C1: for every node collection and edge list, `validateFlow` returns a
result whose `isValid` field is true iff its error list is empty, and the
error list is exactly the concatenation, in the fixed order, of the three
independently evaluated checks (starting point, empty text, isolation),
each contributing its message precisely when its own condition holds
(after the trivial early return for at most one node). -/
theorem c1_validateFlow_shape (nodes : List CustomNode) (edges : List CustomEdge) :
    ((validateFlow nodes edges).isValid = true ↔ (validateFlow nodes edges).errors = []) ∧
    (validateFlow nodes edges).errors =
      (if nodes.length ≤ 1 then [] else
        (if 1 < (noIncomingNodes nodes edges).length then
          [startConnMsg (noIncomingNodes nodes edges).length] else []) ++
        (if 0 < (emptyTextNodes nodes).length then
          [emptyTextMsg (emptyTextNodes nodes).length] else []) ++
        (if 1 < (isolatedNodes nodes edges).length then
          [isoMsg (isolatedNodes nodes edges).length] else [])) :=
  ⟨validateFlow_isValid_iff nodes edges, validateFlow_errors_eq nodes edges⟩

/-- C3: with zero or one nodes, `validateFlow` is valid with no errors,
whatever the edges. -/
theorem c3_small_flow_valid (nodes : List CustomNode) (edges : List CustomEdge)
    (h : nodes.length ≤ 1) : validateFlow nodes edges = { isValid := true, errors := [] } := by
  unfold validateFlow
  rw [if_pos h]

/-- Witness for C3 at a concrete input: the empty node collection with a
nonempty edge list. -/
theorem c3_small_flow_valid_witness :
    ([] : List CustomNode).length ≤ 1 ∧
      validateFlow [] [eAB] = { isValid := true, errors := [] } :=
  ⟨by decide, c3_small_flow_valid [] [eAB] (by decide)⟩

/-- C7: `canConnect` rejects every self connection, whatever the handles
and the existing edges. -/
theorem c7_no_self_loops (nodeId : String) (sourceHandle targetHandle : Option String)
    (edges : List CustomEdge) :
    canConnect nodeId sourceHandle nodeId targetHandle edges = false := by
  unfold canConnect
  simp

/-- C5: an existing edge from the same (source, sourceHandle) pair (absent
handles comparing equal) makes `canConnect` answer false for every target;
with no such edge, a distinct target node and no exact duplicate, it
answers true. -/
theorem c5_single_outgoing_per_port (sourceNodeId : String) (sourceHandle : Option String)
    (targetNodeId : String) (targetHandle : Option String) (edges : List CustomEdge) :
    ((∃ e ∈ edges, e.source = sourceNodeId ∧ e.sourceHandle = sourceHandle) →
      canConnect sourceNodeId sourceHandle targetNodeId targetHandle edges = false) ∧
    (sourceNodeId ≠ targetNodeId →
      (¬ ∃ e ∈ edges, e.source = sourceNodeId ∧ e.sourceHandle = sourceHandle) →
      (¬ ∃ e ∈ edges, e.source = sourceNodeId ∧ e.target = targetNodeId ∧
          e.sourceHandle = sourceHandle ∧ e.targetHandle = targetHandle) →
      canConnect sourceNodeId sourceHandle targetNodeId targetHandle edges = true) := by
  constructor
  · intro hpair
    unfold canConnect
    have hany : (edges.any fun edge =>
        edge.source == sourceNodeId && edge.sourceHandle == sourceHandle) = true := by
      rw [List.any_eq_true]
      rcases hpair with ⟨e, he, hs, hh⟩
      exact ⟨e, he, by simp [hs, hh]⟩
    simp [hany]
  · intro hne hpair hdup
    unfold canConnect
    have h2 : ¬ (edges.any fun edge =>
        edge.source == sourceNodeId && edge.sourceHandle == sourceHandle) = true := by
      rw [List.any_eq_true]
      rintro ⟨e, he, hp⟩
      simp only [Bool.and_eq_true, beq_iff_eq] at hp
      exact hpair ⟨e, he, hp.1, hp.2⟩
    have h3 : ¬ (edges.any fun edge =>
        edge.source == sourceNodeId && edge.target == targetNodeId &&
        edge.sourceHandle == sourceHandle && edge.targetHandle == targetHandle) = true := by
      rw [List.any_eq_true]
      rintro ⟨e, he, hp⟩
      simp only [Bool.and_eq_true, beq_iff_eq] at hp
      exact hdup ⟨e, he, hp.1.1.1, hp.1.1.2, hp.1.2, hp.2⟩
    rw [if_neg (by simpa using hne), if_neg h2, if_neg h3]

/-- Witness for C5 at concrete inputs: a second use of the output port of
A is rejected even toward a fresh target, and a first connection A -> B
over an empty edge list is accepted. -/
theorem c5_single_outgoing_per_port_witness :
    canConnect "A" none "C" none [eAB] = false ∧
      canConnect "A" none "B" none [] = true :=
  ⟨(c5_single_outgoing_per_port "A" none "C" none [eAB]).1 ⟨eAB, by simp, rfl, rfl⟩,
    (c5_single_outgoing_per_port "A" none "B" none []).2 (by decide) (by simp) (by simp)⟩

/-- Membership in an optional singleton. -/
lemma mem_if_singleton {c : Prop} [Decidable c] {x m : String} :
    x ∈ (if c then [m] else []) ↔ c ∧ x = m := by
  split
  · simp [*]
  · simp [*]

/-- Characterization of membership in the error list of a flow with more
than one node: a string is an error exactly when it is the message of one
of the three checks and that check fired. -/
lemma mem_validateFlow_errors (nodes : List CustomNode) (edges : List CustomEdge)
    (h : 1 < nodes.length) (x : String) :
    x ∈ (validateFlow nodes edges).errors ↔
      (1 < (noIncomingNodes nodes edges).length ∧
        x = startConnMsg (noIncomingNodes nodes edges).length) ∨
      (0 < (emptyTextNodes nodes).length ∧
        x = emptyTextMsg (emptyTextNodes nodes).length) ∨
      (1 < (isolatedNodes nodes edges).length ∧
        x = isoMsg (isolatedNodes nodes edges).length) := by
  rw [validateFlow_errors_eq, if_neg (by omega)]
  simp only [List.mem_append, mem_if_singleton]
  tauto

/-- C2: with more than one node, the starting-point error is present
exactly when strictly more than one node lacks an incoming edge, and any
starting-point error present is the one stating that count. -/
theorem c2_multiple_starting_points (nodes : List CustomNode) (edges : List CustomEdge)
    (h : 1 < nodes.length) :
    (startConnMsg (noIncomingNodes nodes edges).length ∈ (validateFlow nodes edges).errors ↔
      1 < (noIncomingNodes nodes edges).length) ∧
    (∀ k, startConnMsg k ∈ (validateFlow nodes edges).errors →
      startConnMsg k = startConnMsg (noIncomingNodes nodes edges).length) := by
  constructor
  · rw [mem_validateFlow_errors nodes edges h]
    constructor
    · rintro (⟨hc, _⟩ | ⟨_, habs⟩ | ⟨_, habs⟩)
      · exact hc
      · exact absurd habs (startConnMsg_ne_emptyTextMsg _ _)
      · exact absurd habs (startConnMsg_ne_isoMsg _ _)
    · intro hc
      exact Or.inl ⟨hc, rfl⟩
  · intro k hk
    rw [mem_validateFlow_errors nodes edges h] at hk
    rcases hk with ⟨_, heq⟩ | ⟨_, habs⟩ | ⟨_, habs⟩
    · exact heq
    · exact absurd habs (startConnMsg_ne_emptyTextMsg _ _)
    · exact absurd habs (startConnMsg_ne_isoMsg _ _)

/-- Witness for C2 at a concrete input: two nodes and no edges give two
source-less nodes, so the starting-point error appears. -/
theorem c2_multiple_starting_points_witness :
    1 < ([nA, nB] : List CustomNode).length ∧
      (startConnMsg (noIncomingNodes [nA, nB] []).length ∈
          (validateFlow [nA, nB] []).errors ↔
        1 < (noIncomingNodes [nA, nB] []).length) :=
  ⟨by decide, (c2_multiple_starting_points [nA, nB] [] (by decide)).1⟩

/-- C4: with more than one node, the empty-text error is present exactly
when some node's text is absent or trims to the empty string, any
empty-text error present is the one stating the count of such nodes, and
the spec's scenario A(text "hi"), B(text "") with the single edge A -> B
yields invalid with exactly the one empty-text error counting one node. -/
theorem c4_empty_text_check (nodes : List CustomNode) (edges : List CustomEdge)
    (h : 1 < nodes.length) :
    (emptyTextMsg (emptyTextNodes nodes).length ∈ (validateFlow nodes edges).errors ↔
      0 < (emptyTextNodes nodes).length) ∧
    (∀ k, emptyTextMsg k ∈ (validateFlow nodes edges).errors →
      emptyTextMsg k = emptyTextMsg (emptyTextNodes nodes).length) ∧
    validateFlow [nA, nBempty] [eAB] = { isValid := false, errors := [emptyTextMsg 1] } := by
  refine ⟨?_, ?_, ?_⟩
  · rw [mem_validateFlow_errors nodes edges h]
    constructor
    · rintro (⟨_, habs⟩ | ⟨hc, _⟩ | ⟨_, habs⟩)
      · exact absurd habs.symm (startConnMsg_ne_emptyTextMsg _ _)
      · exact hc
      · exact absurd habs (emptyTextMsg_ne_isoMsg _ _)
    · intro hc
      exact Or.inr (Or.inl ⟨hc, rfl⟩)
  · intro k hk
    rw [mem_validateFlow_errors nodes edges h] at hk
    rcases hk with ⟨_, habs⟩ | ⟨_, heq⟩ | ⟨_, habs⟩
    · exact absurd habs.symm (startConnMsg_ne_emptyTextMsg _ _)
    · exact heq
    · exact absurd habs (emptyTextMsg_ne_isoMsg _ _)
  · decide

/-- Witness for C4 at a concrete input: node B of the scenario has empty
text, so the empty-text error appears. -/
theorem c4_empty_text_check_witness :
    1 < ([nA, nBempty] : List CustomNode).length ∧
      (emptyTextMsg (emptyTextNodes [nA, nBempty]).length ∈
          (validateFlow [nA, nBempty] [eAB]).errors ↔
        0 < (emptyTextNodes [nA, nBempty]).length) :=
  ⟨by decide, (c4_empty_text_check [nA, nBempty] [eAB] (by decide)).1⟩

/-- Isolated nodes are in particular source-less, so there are at most as
many of them. -/
lemma isolated_length_le_noIncoming (nodes : List CustomNode) (edges : List CustomEdge) :
    (isolatedNodes nodes edges).length ≤ (noIncomingNodes nodes edges).length := by
  unfold isolatedNodes noIncomingNodes
  apply List.Sublist.length_le
  apply List.monotone_filter_right
  intro a ha
  simp only [Bool.and_eq_true] at ha
  exact ha.1

/-- C10: with more than one node, whenever the isolated-nodes error is
present, the starting-point error is present as well, and the error list
has at least two entries — the isolation error never stands alone. -/
theorem c10_isolated_implies_multi_start (nodes : List CustomNode) (edges : List CustomEdge)
    (h : 1 < nodes.length) (hiso : ∃ k, isoMsg k ∈ (validateFlow nodes edges).errors) :
    startConnMsg (noIncomingNodes nodes edges).length ∈ (validateFlow nodes edges).errors ∧
      2 ≤ (validateFlow nodes edges).errors.length := by
  obtain ⟨k, hk⟩ := hiso
  rw [mem_validateFlow_errors nodes edges h] at hk
  have hc3 : 1 < (isolatedNodes nodes edges).length := by
    rcases hk with ⟨_, habs⟩ | ⟨_, habs⟩ | ⟨hc, _⟩
    · exact absurd habs.symm (startConnMsg_ne_isoMsg _ _)
    · exact absurd habs.symm (emptyTextMsg_ne_isoMsg _ _)
    · exact hc
  have hc1 : 1 < (noIncomingNodes nodes edges).length :=
    lt_of_lt_of_le hc3 (isolated_length_le_noIncoming nodes edges)
  constructor
  · rw [mem_validateFlow_errors nodes edges h]
    exact Or.inl ⟨hc1, rfl⟩
  · rw [validateFlow_errors_eq, if_neg (by omega), if_pos hc1, if_pos hc3]
    simp

/-- Witness for C10 at a concrete input: two unconnected nodes are both
isolated and both source-less, so both errors appear. -/
theorem c10_isolated_implies_multi_start_witness :
    (1 < ([nA, nB] : List CustomNode).length ∧
      isoMsg 2 ∈ (validateFlow [nA, nB] []).errors) ∧
    (startConnMsg (noIncomingNodes [nA, nB] []).length ∈ (validateFlow [nA, nB] []).errors ∧
      2 ≤ (validateFlow [nA, nB] []).errors.length) :=
  ⟨⟨by decide, by decide⟩,
    c10_isolated_implies_multi_start [nA, nB] [] (by decide) ⟨2, by decide⟩⟩

/-- Full characterization of acceptance: `canConnect` answers true exactly
when the connection is not a self-loop and no existing edge already uses
the same (source, sourceHandle) pair (an exact duplicate in particular
uses that pair, so the duplicate check adds nothing to this condition). -/
lemma canConnect_true_iff (sourceNodeId : String) (sourceHandle : Option String)
    (targetNodeId : String) (targetHandle : Option String) (edges : List CustomEdge) :
    canConnect sourceNodeId sourceHandle targetNodeId targetHandle edges = true ↔
      (sourceNodeId ≠ targetNodeId ∧
        ¬ ∃ e ∈ edges, e.source = sourceNodeId ∧ e.sourceHandle = sourceHandle) := by
  unfold canConnect
  by_cases h1 : (sourceNodeId == targetNodeId) = true
  · rw [if_pos h1]
    simp only [beq_iff_eq] at h1
    simp [h1]
  · rw [if_neg h1]
    simp only [beq_iff_eq] at h1
    by_cases h2 : (edges.any fun edge =>
        edge.source == sourceNodeId && edge.sourceHandle == sourceHandle) = true
    · rw [if_pos h2]
      rw [List.any_eq_true] at h2
      obtain ⟨e, he, hp⟩ := h2
      simp only [Bool.and_eq_true, beq_iff_eq] at hp
      constructor
      · intro hf
        exact absurd hf (by simp)
      · rintro ⟨_, hno⟩
        exact absurd ⟨e, he, hp.1, hp.2⟩ hno
    · have h3 : ¬ (edges.any fun edge =>
          edge.source == sourceNodeId && edge.target == targetNodeId &&
          edge.sourceHandle == sourceHandle && edge.targetHandle == targetHandle) = true := by
        intro h3
        apply h2
        rw [List.any_eq_true] at h3 ⊢
        obtain ⟨e, he, hp⟩ := h3
        simp only [Bool.and_eq_true, beq_iff_eq] at hp
        exact ⟨e, he, by simp [hp.1.1.1, hp.1.2]⟩
      rw [if_neg h2, if_neg h3]
      simp only [true_iff]
      constructor
      · exact h1
      · intro ⟨e, he, hs, hh⟩
        apply h2
        rw [List.any_eq_true]
        exact ⟨e, he, by simp [hs, hh]⟩

/-- C6 counterexample: over the empty edge list no exact duplicate of
(A, A, none, none) exists, yet `canConnect` answers false (the self-loop
rule fires), refuting "true otherwise". -/
theorem c6_counterexample :
    (¬ ∃ e ∈ ([] : List CustomEdge), e.source = "A" ∧ e.target = "A" ∧
        e.sourceHandle = (none : Option String) ∧ e.targetHandle = (none : Option String)) ∧
      canConnect "A" none "A" none [] = false := by
  constructor
  · simp
  · decide

/-- C6 amended: `canConnect` answers false whenever the edge list contains
an edge with the identical (source, target, sourceHandle, targetHandle)
tuple; in the absence of such a duplicate it answers true exactly when the
endpoints differ and no existing edge uses the same (source, sourceHandle)
pair. -/
theorem c6_duplicate_rule_amended (sourceNodeId : String) (sourceHandle : Option String)
    (targetNodeId : String) (targetHandle : Option String) (edges : List CustomEdge) :
    ((∃ e ∈ edges, e.source = sourceNodeId ∧ e.target = targetNodeId ∧
        e.sourceHandle = sourceHandle ∧ e.targetHandle = targetHandle) →
      canConnect sourceNodeId sourceHandle targetNodeId targetHandle edges = false) ∧
    (canConnect sourceNodeId sourceHandle targetNodeId targetHandle edges = true ↔
      (sourceNodeId ≠ targetNodeId ∧
        ¬ ∃ e ∈ edges, e.source = sourceNodeId ∧ e.sourceHandle = sourceHandle)) := by
  constructor
  · rintro ⟨e, he, hs, _, hsh, _⟩
    cases hb : canConnect sourceNodeId sourceHandle targetNodeId targetHandle edges with
    | false => rfl
    | true =>
      exact absurd ⟨e, he, hs, hsh⟩
        ((canConnect_true_iff sourceNodeId sourceHandle targetNodeId targetHandle edges).mp hb).2
  · exact canConnect_true_iff sourceNodeId sourceHandle targetNodeId targetHandle edges

/-- Witness for the amended C6 at concrete inputs: a present duplicate of
A -> B is rejected, and a first connection over the empty edge list is
accepted. -/
theorem c6_duplicate_rule_amended_witness :
    canConnect "A" none "B" none [eAB] = false ∧ canConnect "A" none "B" none [] = true :=
  ⟨(c6_duplicate_rule_amended "A" none "B" none [eAB]).1 ⟨eAB, by simp, rfl, rfl, rfl, rfl⟩,
    (c6_duplicate_rule_amended "A" none "B" none []).2.mpr ⟨by decide, by simp⟩⟩

/-
Correctness of the DFS.  The invariant `Inv adj v s` describes a
well-formed intermediate state of the traversal: the recursion stack is a
subset of the visited set without duplicates, and the finished nodes
(visited but off the stack) are closed under the adjacency relation and
lie on no cycle.  `Chain'` on the stack records that each stacked node is
an adjacency-successor of the node below it, which turns a stack hit into
an actual cycle.
-/

/-- Invariant of a DFS state: the stack is a duplicate-free subset of the
visited set, and every finished node (visited, off the stack) has all its
successors finished and lies on no cycle. -/
def DfsInv (adj : String → List String) (v s : List String) : Prop :=
  (∀ x ∈ s, x ∈ v) ∧ s.Nodup ∧
  (∀ b, b ∈ v → b ∉ s → ∀ c ∈ adj b, c ∈ v ∧ c ∉ s) ∧
  (∀ x, x ∈ v → x ∉ s → ¬ Relation.TransGen (StepRel adj) x x)

/-- Every member of a stack whose adjacent entries are adjacency-steps
reaches the stack head. -/
lemma stack_reach (adj : String → List String) :
    ∀ (t : List String) (h : String),
      List.Chain' (fun a b => a ∈ adj b) (h :: t) →
      ∀ x ∈ h :: t, Relation.ReflTransGen (StepRel adj) x h := by
  intro t
  induction t with
  | nil =>
    intro h _ x hx
    rcases List.mem_cons.mp hx with rfl | hx'
    · exact Relation.ReflTransGen.refl
    · cases hx'
  | cons h2 t' ih =>
    intro h hch x hx
    rcases List.mem_cons.mp hx with rfl | hx'
    · exact Relation.ReflTransGen.refl
    · have hstep : h ∈ adj h2 := (List.chain'_cons.mp hch).1
      have hch' := (List.chain'_cons.mp hch).2
      exact (ih h2 hch' x hx').tail hstep

/-- A set closed under adjacency-successors absorbs reflexive-transitive
traversal. -/
lemma closed_reflTransGen (adj : String → List String) (B : String → Prop)
    (hB : ∀ b, B b → ∀ c ∈ adj b, B c) :
    ∀ x z, B x → Relation.ReflTransGen (StepRel adj) x z → B z := by
  intro x z hx h
  induction h with
  | refl => exact hx
  | tail _ hyz ih => exact hB _ ih _ hyz

/-- Finishing a node: when the stack top has all its successors finished,
popping it preserves the invariant. -/
lemma finish_node (adj : String → List String) (v t : List String) (nodeId : String)
    (hInv : DfsInv adj v (nodeId :: t))
    (hnb : ∀ c ∈ adj nodeId, c ∈ v ∧ c ∉ nodeId :: t) :
    DfsInv adj v t := by
  obtain ⟨hsv, hnd, hcl, hac⟩ := hInv
  refine ⟨fun x hx => hsv x (List.mem_cons_of_mem _ hx), (List.nodup_cons.mp hnd).2, ?_, ?_⟩
  · intro b hbv hbt c hc
    by_cases hb : b = nodeId
    · subst hb
      have := hnb c hc
      exact ⟨this.1, fun hct => this.2 (List.mem_cons_of_mem _ hct)⟩
    · have hbs : b ∉ nodeId :: t := by
        intro hmem
        rcases List.mem_cons.mp hmem with h | h
        · exact hb h
        · exact hbt h
      have := hcl b hbv hbs c hc
      exact ⟨this.1, fun hct => this.2 (List.mem_cons_of_mem _ hct)⟩
  · intro x hxv hxt hcyc
    by_cases hx : x = nodeId
    · subst hx
      rcases Relation.TransGen.head'_iff.mp hcyc with ⟨c, hstep, hrest⟩
      have hcB : c ∈ v ∧ c ∉ x :: t := hnb c hstep
      have hBcl : ∀ b, (b ∈ v ∧ b ∉ x :: t) → ∀ d ∈ adj b, d ∈ v ∧ d ∉ x :: t :=
        fun b hb d hd => hcl b hb.1 hb.2 d hd
      have hxB : x ∈ v ∧ x ∉ x :: t :=
        closed_reflTransGen adj _ hBcl c x hcB hrest
      exact hxB.2 (List.mem_cons_self _ _)
    · have hxs : x ∉ nodeId :: t := by
        intro hmem
        rcases List.mem_cons.mp hmem with h | h
        · exact hx h
        · exact hxt h
      exact hac x hxv hxs hcyc

/-- Specification of one DFS node step with fuel bound `f`: started on an
unvisited node of the universe `U` with at least as much fuel as there are
unvisited universe members, from an invariant state whose stack is a chain
compatible with the started node, the step either reports a cycle that
really exists, or reports none, restores the stack, grows the visited set,
marks the node, and preserves the invariant. -/
def NodeSpec (adj : String → List String) (U : List String) (f : Nat)
    (next : String → List String → List String → Bool × List String × List String) : Prop :=
  ∀ n v s, n ∈ U → n ∉ v → (U.toFinset \ v.toFinset).card ≤ f →
    DfsInv adj v s → List.Chain' (fun a b => a ∈ adj b) s →
    (s = [] ∨ ∃ h t, s = h :: t ∧ n ∈ adj h) →
    ((next n v s).1 = true → ∃ x, Relation.TransGen (StepRel adj) x x) ∧
    ((next n v s).1 = false →
      (next n v s).2.2 = s ∧ (∀ x ∈ v, x ∈ (next n v s).2.1) ∧ n ∈ (next n v s).2.1 ∧
      DfsInv adj (next n v s).2.1 s)

/-- Monotonicity of the fuel measure under growth of the visited set. -/
lemma card_sdiff_le_of_subset (U v v2 : List String) (h : ∀ x ∈ v, x ∈ v2) :
    (U.toFinset \ v2.toFinset).card ≤ (U.toFinset \ v.toFinset).card := by
  apply Finset.card_le_card
  apply Finset.sdiff_subset_sdiff (Finset.Subset.refl _)
  intro x hx
  exact List.mem_toFinset.mpr (h x (List.mem_toFinset.mp hx))

/-- Specification of the neighbor loop: under the invariant, with the
already-processed neighbors of the current node finished, the loop either
reports a cycle that really exists, or pops the current node, grows the
visited set, and preserves the invariant for the popped stack. -/
lemma dfsGo_spec (adj : String → List String) (U : List String) (f : Nat)
    (next : String → List String → List String → Bool × List String × List String)
    (hnext : NodeSpec adj U f next) :
    ∀ (ns : List String) (nodeId : String) (t v : List String),
      (∀ x ∈ ns, x ∈ U) → (∀ x ∈ ns, x ∈ adj nodeId) →
      (U.toFinset \ v.toFinset).card ≤ f →
      DfsInv adj v (nodeId :: t) →
      List.Chain' (fun a b => a ∈ adj b) (nodeId :: t) →
      (∀ c ∈ adj nodeId, c ∈ ns ∨ (c ∈ v ∧ c ∉ nodeId :: t)) →
      ((dfsGo next ns nodeId v (nodeId :: t)).1 = true →
        ∃ x, Relation.TransGen (StepRel adj) x x) ∧
      ((dfsGo next ns nodeId v (nodeId :: t)).1 = false →
        (dfsGo next ns nodeId v (nodeId :: t)).2.2 = t ∧
        (∀ x ∈ v, x ∈ (dfsGo next ns nodeId v (nodeId :: t)).2.1) ∧
        DfsInv adj (dfsGo next ns nodeId v (nodeId :: t)).2.1 t) := by
  intro ns
  induction ns with
  | nil =>
    intro nodeId t v _ _ _ hInv _ hproc
    have hnb : ∀ c ∈ adj nodeId, c ∈ v ∧ c ∉ nodeId :: t := by
      intro c hc
      rcases hproc c hc with h | h
      · cases h
      · exact h
    refine ⟨fun htrue => ?_, fun _ =>
      ⟨List.erase_cons_head nodeId t, fun x hx => hx, ?_⟩⟩
    · simp [dfsGo] at htrue
    · show DfsInv adj v t
      exact finish_node adj v t nodeId hInv hnb
  | cons n rest ih =>
    intro nodeId t v hU hadj hcard hInv hch hproc
    simp only [dfsGo]
    by_cases hn : n ∈ v
    · rw [if_neg (not_not_intro hn)]
      by_cases hns : n ∈ nodeId :: t
      · rw [if_pos hns]
        refine ⟨fun _ => ?_, fun hfalse => absurd hfalse (by simp)⟩
        have hreach : Relation.ReflTransGen (StepRel adj) n nodeId :=
          stack_reach adj t nodeId hch n hns
        have hstep : StepRel adj nodeId n := hadj n (List.mem_cons_self n rest)
        exact ⟨n, Relation.TransGen.tail' hreach hstep⟩
      · rw [if_neg hns]
        apply ih nodeId t v (fun x hx => hU x (List.mem_cons_of_mem n hx))
          (fun x hx => hadj x (List.mem_cons_of_mem n hx)) hcard hInv hch
        intro c hc
        rcases hproc c hc with h | h
        · rcases List.mem_cons.mp h with rfl | h'
          · exact Or.inr ⟨hn, hns⟩
          · exact Or.inl h'
        · exact Or.inr h
    · rw [if_pos hn]
      have hspec := hnext n v (nodeId :: t) (hU n (List.mem_cons_self n rest)) hn hcard hInv hch
        (Or.inr ⟨nodeId, t, rfl, hadj n (List.mem_cons_self n rest)⟩)
      rcases hres : next n v (nodeId :: t) with ⟨r, v2, s2⟩
      rw [hres] at hspec
      cases r
      · obtain ⟨hs2, hvsub, hnv2, hInv2⟩ := hspec.2 rfl
        simp only at hs2 hvsub hnv2 hInv2
        subst hs2
        have hcard2 : (U.toFinset \ v2.toFinset).card ≤ f :=
          le_trans (card_sdiff_le_of_subset U v v2 hvsub) hcard
        have hproc2 : ∀ c ∈ adj nodeId, c ∈ rest ∨ (c ∈ v2 ∧ c ∉ nodeId :: t) := by
          intro c hc
          rcases hproc c hc with h | h
          · rcases List.mem_cons.mp h with rfl | h'
            · exact Or.inr ⟨hnv2, fun hcs => hn (hInv.1 c hcs)⟩
            · exact Or.inl h'
          · exact Or.inr ⟨hvsub c h.1, h.2⟩
        have hih := ih nodeId t v2 (fun x hx => hU x (List.mem_cons_of_mem n hx))
          (fun x hx => hadj x (List.mem_cons_of_mem n hx)) hcard2 hInv2 hch hproc2
        refine ⟨hih.1, fun hf => ?_⟩
        obtain ⟨h1, h2, h3⟩ := hih.2 hf
        exact ⟨h1, fun x hx => h2 x (hvsub x hx), h3⟩
      · exact ⟨fun _ => hspec.1 rfl, fun hfalse => absurd hfalse (by simp)⟩

/-- Every fuel level of `dfsNodeF` meets `NodeSpec`, provided all
adjacency targets lie in the universe `U`: with fuel bounding the number
of unvisited universe members, the out-of-fuel branch is unreachable. -/
lemma nodeSpec_all (adj : String → List String) (U : List String)
    (hU : ∀ x y, y ∈ adj x → y ∈ U) :
    ∀ f, NodeSpec adj U f (dfsNodeF adj f) := by
  intro f
  induction f with
  | zero =>
    intro n v s hnU hnv hcard _ _ _
    exfalso
    have hmem : n ∈ U.toFinset \ v.toFinset :=
      Finset.mem_sdiff.mpr
        ⟨List.mem_toFinset.mpr hnU, fun h => hnv (List.mem_toFinset.mp h)⟩
    have := Finset.card_pos.mpr ⟨n, hmem⟩
    omega
  | succ f ihf =>
    intro n v s hnU hnv hcard hInv hch hcompat
    obtain ⟨hsv, hnd, hcl, hac⟩ := hInv
    have hns : n ∉ s := fun h => hnv (hsv n h)
    have hcard2 : (U.toFinset \ (n :: v).toFinset).card ≤ f := by
      have h1 : U.toFinset \ (n :: v).toFinset = (U.toFinset \ v.toFinset).erase n := by
        rw [List.toFinset_cons, Finset.sdiff_insert]
      have hmem : n ∈ U.toFinset \ v.toFinset :=
        Finset.mem_sdiff.mpr
          ⟨List.mem_toFinset.mpr hnU, fun h => hnv (List.mem_toFinset.mp h)⟩
      rw [h1, Finset.card_erase_of_mem hmem]
      omega
    have hInv2 : DfsInv adj (n :: v) (n :: s) := by
      refine ⟨?_, List.nodup_cons.mpr ⟨hns, hnd⟩, ?_, ?_⟩
      · intro x hx
        rcases List.mem_cons.mp hx with rfl | hx'
        · exact List.mem_cons_self x v
        · exact List.mem_cons_of_mem _ (hsv x hx')
      · intro b hbv hbs c hc
        have hbn : b ≠ n := fun h => hbs (h ▸ List.mem_cons_self n s)
        have hbv' : b ∈ v := by
          rcases List.mem_cons.mp hbv with rfl | h
          · exact absurd rfl hbn
          · exact h
        have hbs' : b ∉ s := fun h => hbs (List.mem_cons_of_mem _ h)
        have hres := hcl b hbv' hbs' c hc
        refine ⟨List.mem_cons_of_mem _ hres.1, ?_⟩
        intro hcs
        rcases List.mem_cons.mp hcs with rfl | h
        · exact hnv hres.1
        · exact hres.2 h
      · intro x hxv hxs
        have hxn : x ≠ n := fun h => hxs (h ▸ List.mem_cons_self n s)
        have hxv' : x ∈ v := by
          rcases List.mem_cons.mp hxv with rfl | h
          · exact absurd rfl hxn
          · exact h
        exact hac x hxv' (fun h => hxs (List.mem_cons_of_mem _ h))
    have hch2 : List.Chain' (fun a b => a ∈ adj b) (n :: s) := by
      rcases hcompat with rfl | ⟨h, t', rfl, hmem⟩
      · exact List.chain'_singleton n
      · exact List.chain'_cons.mpr ⟨hmem, hch⟩
    have hgo := dfsGo_spec adj U f (dfsNodeF adj f) ihf (adj n) n s (n :: v)
        (fun x hx => hU n x hx) (fun x hx => hx) hcard2 hInv2 hch2
        (fun c hc => Or.inl hc)
    have hred : dfsNodeF adj (f + 1) n v s = dfsGo (dfsNodeF adj f) (adj n) n (n :: v) (n :: s) := by
      simp only [dfsNodeF]
      rw [if_neg hnv, if_neg hns]
    rw [hred]
    refine ⟨hgo.1, fun hf2 => ?_⟩
    obtain ⟨h1, h2, h3⟩ := hgo.2 hf2
    exact ⟨h1, fun x hx => h2 x (List.mem_cons_of_mem n hx),
      h2 n (List.mem_cons_self n v), h3⟩

/-- Specification of the outer loop: starting from an invariant state with
an empty stack and fuel bounding the unvisited universe members, the loop
answers true only in the presence of a real adjacency cycle, and on a
false answer leaves a visited set containing every listed start node that
still satisfies the invariant. -/
lemma dfsLoop_spec (adj : String → List String) (U : List String) (fuel : Nat)
    (hU : ∀ x y, y ∈ adj x → y ∈ U) :
    ∀ (ids : List String) (v : List String),
      (∀ x ∈ ids, x ∈ U) → (U.toFinset \ v.toFinset).card ≤ fuel → DfsInv adj v [] →
      (dfsLoop adj fuel ids v [] = true → ∃ x, Relation.TransGen (StepRel adj) x x) ∧
      (dfsLoop adj fuel ids v [] = false →
        ∃ v2, (∀ x ∈ v, x ∈ v2) ∧ (∀ x ∈ ids, x ∈ v2) ∧ DfsInv adj v2 []) := by
  intro ids
  induction ids with
  | nil =>
    intro v _ _ hInv
    refine ⟨fun htrue => ?_, fun _ => ⟨v, fun x hx => hx, fun x hx => absurd hx (by simp), hInv⟩⟩
    simp [dfsLoop] at htrue
  | cons i ids' ih =>
    intro v hids hcard hInv
    simp only [dfsLoop]
    by_cases hi : i ∈ v
    · rw [if_neg (not_not_intro hi)]
      have hih := ih v (fun x hx => hids x (List.mem_cons_of_mem i hx)) hcard hInv
      refine ⟨hih.1, fun hf => ?_⟩
      obtain ⟨v2, hv0, hv2, hInv2⟩ := hih.2 hf
      refine ⟨v2, hv0, ?_, hInv2⟩
      intro x hx
      rcases List.mem_cons.mp hx with rfl | hx'
      · exact hv0 x hi
      · exact hv2 x hx'
    · rw [if_pos hi]
      have hspec := nodeSpec_all adj U hU fuel i v []
        (hids i (List.mem_cons_self i ids')) hi hcard hInv List.chain'_nil (Or.inl rfl)
      rcases hres : dfsNodeF adj fuel i v [] with ⟨r, v2, s2⟩
      rw [hres] at hspec
      cases r
      · obtain ⟨hs2, hvsub, hiv2, hInv2⟩ := hspec.2 rfl
        simp only at hs2 hvsub hiv2 hInv2
        subst hs2
        have hcard2 : (U.toFinset \ v2.toFinset).card ≤ fuel :=
          le_trans (card_sdiff_le_of_subset U v v2 hvsub) hcard
        have hih := ih v2 (fun x hx => hids x (List.mem_cons_of_mem i hx)) hcard2 hInv2
        refine ⟨hih.1, fun hf => ?_⟩
        obtain ⟨v3, hv0, hv3, hInv3⟩ := hih.2 hf
        refine ⟨v3, fun x hx => hv0 x (hvsub x hx), ?_, hInv3⟩
        intro x hx
        rcases List.mem_cons.mp hx with rfl | hx'
        · exact hv0 x hiv2
        · exact hv3 x hx'
      · exact ⟨fun _ => hspec.1 rfl, fun hfalse => absurd hfalse (by simp)⟩

/-- Characterization of the built adjacency relation: a step goes from a
node id along some edge of the collection (the target need not be a node
id — the source, however, must, or it has no adjacency entry). -/
lemma stepRel_adjOf (nodes : List CustomNode) (edges : List CustomEdge) (a b : String) :
    StepRel (adjOf nodes edges) a b ↔
      a ∈ nodes.map (fun node => node.id) ∧ ∃ e ∈ edges, e.source = a ∧ e.target = b := by
  unfold StepRel adjOf
  by_cases ha : a ∈ nodes.map (fun node => node.id)
  · rw [if_pos ha]
    simp only [List.mem_map, List.mem_filter, beq_iff_eq, ha, true_and]
    constructor
    · rintro ⟨e, ⟨he, hs⟩, ht⟩
      exact ⟨e, he, hs, ht⟩
    · rintro ⟨e, he, hs, ht⟩
      exact ⟨e, ⟨he, hs⟩, ht⟩
  · rw [if_neg ha]
    simp [ha]

/-- A step-cycle of the built adjacency yields a cycle of the
specification graph: every member of the walk has an outgoing step, hence
is a node id, so every step of the walk is a specification arc. -/
lemma transGen_spec_of_step (nodes : List CustomNode) (edges : List CustomEdge) (x : String)
    (h : Relation.TransGen (StepRel (adjOf nodes edges)) x x) :
    Relation.TransGen (SpecArc nodes edges) x x := by
  have key : ∀ a b, Relation.TransGen (StepRel (adjOf nodes edges)) a b →
      b ∈ nodes.map (fun node => node.id) →
      Relation.TransGen (SpecArc nodes edges) a b := by
    intro a b hab hb
    induction hab using Relation.TransGen.head_induction_on with
    | base hstep =>
      have hc := (stepRel_adjOf nodes edges _ _).mp hstep
      exact Relation.TransGen.single ⟨hc.1, hb, hc.2⟩
    | @ih a2 c hstep hcb ihc =>
      have hc := (stepRel_adjOf nodes edges a2 c).mp hstep
      have hcid : c ∈ nodes.map (fun node => node.id) := by
        rcases Relation.TransGen.head'_iff.mp hcb with ⟨d, hcd, _⟩
        exact ((stepRel_adjOf nodes edges c d).mp hcd).1
      exact Relation.TransGen.head ⟨hc.1, hcid, hc.2⟩ ihc
  have hxid : x ∈ nodes.map (fun node => node.id) := by
    rcases Relation.TransGen.head'_iff.mp h with ⟨c, hxc, _⟩
    exact ((stepRel_adjOf nodes edges _ _).mp hxc).1
  exact key x x h hxid

/-- Every specification arc is an adjacency step. -/
lemma step_of_specArc (nodes : List CustomNode) (edges : List CustomEdge) (a b : String)
    (h : SpecArc nodes edges a b) : StepRel (adjOf nodes edges) a b :=
  (stepRel_adjOf nodes edges a b).mpr ⟨h.1, h.2.2⟩

/-- Correctness of the cycle detector: `hasFlowCycles` answers true
exactly when the graph on the node ids with the present-endpoint edges as
arcs has a directed cycle. -/
lemma hasFlowCycles_iff_hasCycle (nodes : List CustomNode) (edges : List CustomEdge) :
    hasFlowCycles nodes edges = true ↔ HasCycle nodes edges := by
  have hU : ∀ x y, y ∈ adjOf nodes edges x →
      y ∈ (nodes.map (fun node => node.id) ++ edges.map (fun e => e.target)) := by
    intro x y hy
    unfold adjOf at hy
    by_cases hx : x ∈ nodes.map (fun node => node.id)
    · rw [if_pos hx] at hy
      rcases List.mem_map.mp hy with ⟨e, he, rfl⟩
      exact List.mem_append_right _ (List.mem_map.mpr ⟨e, (List.mem_filter.mp he).1, rfl⟩)
    · rw [if_neg hx] at hy
      cases hy
  have hids : ∀ x ∈ nodes.map (fun node => node.id),
      x ∈ (nodes.map (fun node => node.id) ++ edges.map (fun e => e.target)) :=
    fun x hx => List.mem_append_left _ hx
  have hcard : (((nodes.map (fun node => node.id) ++ edges.map (fun e => e.target)).toFinset \
      ([] : List String).toFinset).card ≤ nodes.length + edges.length + 1) := by
    simp only [List.toFinset_nil, Finset.sdiff_empty]
    have h1 := List.toFinset_card_le (nodes.map (fun node => node.id) ++
      edges.map (fun e => e.target))
    simp only [List.length_append, List.length_map] at h1
    omega
  have hInv0 : DfsInv (adjOf nodes edges) [] [] := by
    refine ⟨?_, List.nodup_nil, ?_, ?_⟩
    · intro x hx; cases hx
    · intro b hb; cases hb
    · intro x hx; cases hx
  have hloop := dfsLoop_spec (adjOf nodes edges)
    (nodes.map (fun node => node.id) ++ edges.map (fun e => e.target))
    (nodes.length + edges.length + 1) hU (nodes.map fun node => node.id) [] hids hcard hInv0
  unfold hasFlowCycles
  constructor
  · intro ht
    obtain ⟨x, hx⟩ := hloop.1 ht
    exact ⟨x, transGen_spec_of_step nodes edges x hx⟩
  · rintro ⟨x, hx⟩
    cases hres : dfsLoop (adjOf nodes edges) (nodes.length + edges.length + 1)
        (nodes.map fun node => node.id) [] [] with
    | true => rfl
    | false =>
      exfalso
      obtain ⟨v2, _, hall, hInv2⟩ := hloop.2 hres
      have hxid : x ∈ nodes.map (fun node => node.id) := by
        rcases Relation.TransGen.head'_iff.mp hx with ⟨c, hxc, _⟩
        exact hxc.1
      have hstep : Relation.TransGen (StepRel (adjOf nodes edges)) x x :=
        Relation.TransGen.mono (step_of_specArc nodes edges) hx
      exact hInv2.2.2.2 x (hall x hxid) (by simp) hstep

/-- C8: `hasFlowCycles` answers true exactly when the directed graph whose
vertices are the node ids and whose arcs are the edges with both endpoints
present contains a directed cycle; in particular it answers true for the
two-node graph with edges A -> B and B -> A, false with only A -> B, false
for an empty edge list over any node collection, and true for the single
self-loop A -> A. -/
theorem c8_cycle_detector_correct :
    (∀ (nodes : List CustomNode) (edges : List CustomEdge),
      hasFlowCycles nodes edges = true ↔ HasCycle nodes edges) ∧
    hasFlowCycles [nA, nB] [eAB, eBA] = true ∧
    hasFlowCycles [nA, nB] [eAB] = false ∧
    (∀ nodes : List CustomNode, hasFlowCycles nodes [] = false) ∧
    hasFlowCycles [nA] [eAA] = true := by
  refine ⟨hasFlowCycles_iff_hasCycle, by decide, by decide, ?_, by decide⟩
  intro nodes
  cases hres : hasFlowCycles nodes [] with
  | false => rfl
  | true =>
    exfalso
    obtain ⟨x, hx⟩ := (hasFlowCycles_iff_hasCycle nodes []).mp hres
    rcases Relation.TransGen.head'_iff.mp hx with ⟨c, hxc, _⟩
    rcases hxc.2.2 with ⟨e, he, _⟩
    cases he

/-- C9: edges with an endpoint outside the node collection never change
the verdict of the cycle check — filtering them away first yields the same
result. -/
theorem c9_unknown_edges_ignored (nodes : List CustomNode) (edges : List CustomEdge) :
    hasFlowCycles nodes edges =
      hasFlowCycles nodes (edges.filter fun e =>
        decide (e.source ∈ nodes.map fun node => node.id) &&
        decide (e.target ∈ nodes.map fun node => node.id)) := by
  have harc : ∀ a b, SpecArc nodes edges a b ↔
      SpecArc nodes (edges.filter fun e =>
        decide (e.source ∈ nodes.map fun node => node.id) &&
        decide (e.target ∈ nodes.map fun node => node.id)) a b := by
    intro a b
    unfold SpecArc
    constructor
    · rintro ⟨ha, hb, e, he, hs, ht⟩
      refine ⟨ha, hb, e, List.mem_filter.mpr ⟨he, ?_⟩, hs, ht⟩
      rw [hs, ht]
      simp [ha, hb]
    · rintro ⟨ha, hb, e, he, hs, ht⟩
      exact ⟨ha, hb, e, (List.mem_filter.mp he).1, hs, ht⟩
  have hcyc : HasCycle nodes edges ↔
      HasCycle nodes (edges.filter fun e =>
        decide (e.source ∈ nodes.map fun node => node.id) &&
        decide (e.target ∈ nodes.map fun node => node.id)) := by
    unfold HasCycle
    constructor
    · rintro ⟨x, hx⟩
      exact ⟨x, Relation.TransGen.mono (fun a b h => (harc a b).mp h) hx⟩
    · rintro ⟨x, hx⟩
      exact ⟨x, Relation.TransGen.mono (fun a b h => (harc a b).mpr h) hx⟩
  have h1 := hasFlowCycles_iff_hasCycle nodes edges
  have h2 := hasFlowCycles_iff_hasCycle nodes (edges.filter fun e =>
    decide (e.source ∈ nodes.map fun node => node.id) &&
    decide (e.target ∈ nodes.map fun node => node.id))
  cases hl : hasFlowCycles nodes edges with
  | true =>
    have := h2.mpr (hcyc.mp (h1.mp hl))
    exact this.symm
  | false =>
    cases hr : hasFlowCycles nodes (edges.filter fun e =>
        decide (e.source ∈ nodes.map fun node => node.id) &&
        decide (e.target ∈ nodes.map fun node => node.id)) with
    | false => rfl
    | true =>
      exfalso
      have := h1.mpr (hcyc.mpr (h2.mp hr))
      rw [hl] at this
      cases this
